import Mathlib

/-!
Shallow embedding of the web scraping routines of `index.js`.

The routines of `index.js` fetch a page, query it with selectors and build
records.  The embedding keeps the computations of the code (string trimming,
the course-title regular expression, `parseInt`, template strings, the month
loop, the assembly of a record per card, the `try`/`catch` blocks) and
represents the two external libraries by the values the code reads from them:

* a page parsed by cheerio is represented by the results of the selector
  queries the code performs on it (text of an element set, number of matched
  elements, value of an attribute);
* an `axios.get` call is represented by a function from the URL to either a
  page or a failure.

JavaScript strings are lists of characters.  The regular expression has no
`u` flag and works on UTF-16 code units; no construct of the pattern can
begin or end a capture between the two halves of a surrogate pair, so
matching on characters gives the same captures.

The card callback of the calendar is `async` and `.each` does not wait for
it.  A callback that reaches `await fetchEventDescription(eventUrl)` is
suspended there and pushes its record when it is resumed, at a later point
where the main flow is itself waiting; a callback that does not reach the
`await` pushes while `.each` runs.  Which suspended callbacks resume at which
waiting point, and in which order, is given by a schedule, an input of the
embedding.
-/

namespace Scraper

/-- JavaScript string, as the list of its characters. -/
abbrev JSString := List Char

/-! ## Character classes of ECMAScript -/

/-- White space and line terminators: the characters matched by `\s` and
stripped by `String.prototype.trim`. -/
def isSpace (c : Char) : Bool :=
  let n := c.toNat
  n = 0x09 || n = 0x0A || n = 0x0B || n = 0x0C || n = 0x0D || n = 0x20 || n = 0xA0 ||
  n = 0x1680 || (0x2000 ≤ n && n ≤ 0x200A) || n = 0x2028 || n = 0x2029 || n = 0x202F ||
  n = 0x205F || n = 0x3000 || n = 0xFEFF

/-- Line terminators: the characters that `.` does not match. -/
def isLineTerminator (c : Char) : Bool :=
  let n := c.toNat
  n = 0x0A || n = 0x0D || n = 0x2028 || n = 0x2029

/-- Characters matched by `.` (no `s` flag). -/
def isDot (c : Char) : Bool := !isLineTerminator c

/-- Characters matched by `\d`. -/
def isDigit (c : Char) : Bool := 0x30 ≤ c.toNat && c.toNat ≤ 0x39

/-- Case folding of the `i` flag (no `u` flag) as far as it concerns ASCII
pattern characters: an ASCII lower-case letter is mapped to its upper-case
letter; a character outside ASCII is never mapped into ASCII, so it is left
alone here. -/
def canonicalize (c : Char) : Char :=
  if 0x61 ≤ c.toNat ∧ c.toNat ≤ 0x7A then Char.ofNat (c.toNat - 0x20) else c

/-! ## String primitives -/

/-- Strip leading white space (`trimStart`). -/
def trimStart (s : JSString) : JSString := s.dropWhile isSpace

/-- Strip trailing white space (`trimEnd`). -/
def trimEnd (s : JSString) : JSString := s.rdropWhile isSpace

/-- Model of `String.prototype.trim`. -/
def jsTrim (s : JSString) : JSString := trimEnd (trimStart s)

/-- Value of a decimal digit character. -/
def digitValue (c : Char) : Int := (c.toNat - 0x30 : Nat)

/-- Model of `parseInt(s, 10)`: leading white space is skipped, an optional
sign is read, then the longest prefix of decimal digits; `none` is `NaN`. -/
def parseInt10 (s : JSString) : Option Int :=
  let t := trimStart s
  let (neg, u) := match t with
    | [] => (false, [])
    | c :: r => if c = '-' then (true, r) else if c = '+' then (false, r) else (false, c :: r)
  let ds := u.takeWhile isDigit
  if ds = [] then none
  else
    let v := ds.foldl (fun acc d => acc * 10 + digitValue d) 0
    some (if neg then -v else v)

/-- The comparison `x < b` of JavaScript numbers, false when `x` is `NaN`. -/
def jsLt (x : Option Int) (b : Int) : Bool :=
  match x with
  | none => false
  | some v => decide (v < b)

/-- Model of `toString().padStart(len, fill)` for a one-character filler. -/
def padStart (s : JSString) (len : Nat) (fill : Char) : JSString :=
  List.replicate (len - s.length) fill ++ s

/-! ## Backtracking matcher for the course-title pattern

The matcher is written in continuation-passing style, one combinator per
construct of the regular expression, trying alternatives in the order of
the ECMAScript backtracking semantics. -/

/-- Rest of the match, applied to the remaining input. -/
abbrev Cont (α : Type) := JSString → Option α

/-- Literal character, case-sensitive. -/
def lit {α : Type} (p : Char) (k : Cont α) : Cont α
  | [] => none
  | c :: cs => if c = p then k cs else none

/-- Literal string under the `i` flag. -/
def litCI {α : Type} : JSString → Cont α → Cont α
  | [], k, s => k s
  | _ :: _, _, [] => none
  | p :: ps, k, c :: cs => if canonicalize c = canonicalize p then litCI ps k cs else none

/-- Greedy `cls*`: the longest run is tried first, then shorter ones. -/
def greedyStar {α : Type} (cls : Char → Bool) (k : Cont α) : Cont α
  | [] => k []
  | c :: cs =>
    if cls c then
      match greedyStar cls k cs with
      | some r => some r
      | none => k (c :: cs)
    else k (c :: cs)

/-- Greedy `cls+`. -/
def greedyPlus {α : Type} (cls : Char → Bool) (k : Cont α) : Cont α
  | [] => none
  | c :: cs => if cls c then greedyStar cls k cs else none

/-- Capturing `(cls{n})`; `acc` is the text captured so far. -/
def captureCount {α : Type} (cls : Char → Bool) :
    Nat → JSString → (JSString → Cont α) → Cont α
  | 0, acc, k, s => k acc s
  | _ + 1, _, _, [] => none
  | n + 1, acc, k, c :: cs => if cls c then captureCount cls n (acc ++ [c]) k cs else none

/-- Capturing lazy `(cls+?)`: the shortest run is tried first, then longer
ones; `acc` is the text captured so far. -/
def lazyPlus {α : Type} (cls : Char → Bool) (k : JSString → Cont α) :
    JSString → Cont α
  | _, [] => none
  | acc, c :: cs =>
    if cls c then
      match k (acc ++ [c]) cs with
      | some r => some r
      | none => lazyPlus cls k (acc ++ [c]) cs
    else none

/-- Greedy optional group `(g)?`: first with the group, then without. -/
def optGroup {α : Type} (g : Cont α → Cont α) (k : Cont α) : Cont α := fun s =>
  match g k s with
  | some r => some r
  | none => k s

/-- End of input `$` (no `m` flag), returning the captures. -/
def eos {α : Type} (r : α) : Cont α
  | [] => some r
  | _ :: _ => none

/-- The group `(\s+\(.*Credits\))` under the `i` flag. -/
def creditsGroup {α : Type} (k : Cont α) : Cont α :=
  greedyPlus isSpace (lit '(' (greedyStar isDot (litCI "Credits".toList (lit ')' k))))

/-- The match of `/^COMP\s*(\d{4})\s+(.+?)(\s+\(.*Credits\))?$/i` against a
string: `none` when there is no match, otherwise the captures `match[1]`
and `match[2]`. -/
def matchTitle (s : JSString) : Option (JSString × JSString) :=
  litCI "COMP".toList
    (greedyStar isSpace
      (captureCount isDigit 4 [] fun num =>
        greedyPlus isSpace
          (lazyPlus isDot (fun title => optGroup creditsGroup (eos (num, title))) []))) s

/-! ## Task 1: the bulletin -/

/-- A `.courseblock` element, by the two queries the code makes on it. -/
structure CourseBlock where
  /-- Result of `$(elem).find('p.courseblocktitle strong').text()`. -/
  strongText : JSString
  /-- Result of `$(elem).find('p.courseblockdesc a').length`. -/
  descLinks : Nat
  deriving DecidableEq, Repr

/-- The object `{ course, title }`. -/
structure CourseRecord where
  course : JSString
  title : JSString
  deriving DecidableEq, Repr

/-- Body of the callback given to `$('.courseblock').each`: the value of
`courses` after the callback has run on `elem`. -/
def courseCallback (courses : List CourseRecord) (elem : CourseBlock) : List CourseRecord :=
  let strongText := jsTrim elem.strongText
  if strongText = [] then courses
  else
    match matchTitle strongText with
    | none => courses
    | some (m1, m2) =>
      let courseNumber := parseInt10 m1
      if jsLt courseNumber 3000 then courses
      else
        let courseCodeFormatted := "COMP-".toList ++ m1
        let courseTitle := jsTrim m2
        let hasPrereq := decide (elem.descLinks > 0)
        if hasPrereq then courses
        else courses ++ [{ course := courseCodeFormatted, title := courseTitle }]

/-- The object `{ courses }` given to `fs.writeJson`. -/
structure BulletinFile where
  courses : List CourseRecord
  deriving DecidableEq, Repr

/-- The loop of `scrapeBulletin` over the course blocks of the page, in
document order, starting from `courses = []`. -/
def collectCourses (blocks : List CourseBlock) : List CourseRecord :=
  blocks.foldl courseCallback []

/-- Model of `scrapeBulletin`: `page` is the outcome of `axios.get` on the
bulletin URL (`none` when the request fails, otherwise the course blocks of
the page); the result is the object written to `results/bulletin.json`, or
`none` when the `catch` branch is taken and nothing is written. -/
def scrapeBulletin (page : Option (List CourseBlock)) : Option BulletinFile :=
  match page with
  | none => none
  | some blocks => some { courses := collectCourses blocks }

/-! ## Task 3: the calendar -/

/-- The object `{ start, end }` of one month. -/
structure MonthWindow where
  start : JSString
  end_ : JSString
  deriving DecidableEq, Repr

/-- Body of the loop that builds the month ranges, for one value of
`month`: the object pushed on `months`. -/
def monthWindow (month : Nat) : MonthWindow :=
  let start := "2025-".toList ++ padStart (Nat.repr month).toList 2 '0' ++ "-01".toList
  let end_ :=
    if month = 12 then "2026-01-01".toList
    else "2025-".toList ++ padStart (Nat.repr (month + 1)).toList 2 '0' ++ "-01".toList
  { start := start, end_ := end_ }

/-- The loop `for (let month = 1; month <= 12; month++)`: its body runs for
`month = 1, …, 12` and pushes one window each time; the value of `months`
after the loop. -/
def buildMonths : List MonthWindow :=
  (List.range' 1 12).foldl (fun months month => months ++ [monthWindow month]) []

/-- The constant `baseUrl`. -/
def baseUrl : JSString := "https://www.du.edu/calendar".toList

/-- The template string that builds the listing URL of a window. -/
def listingUrl (w : MonthWindow) : JSString :=
  baseUrl ++ "?search=&start_date=".toList ++ w.start ++ "&end_date=".toList ++ w.end_ ++
    "#events-listing-date-filter-anchor".toList

/-- An `.events-listing__item` element, by the queries the code makes on
its `a.event-card` descendants (`eventLinkElem`). -/
structure EventCard where
  /-- Result of `eventLinkElem.length`. -/
  linkCount : Nat
  /-- Result of `eventLinkElem.find('p').first().text()`. -/
  firstParagraph : JSString
  /-- Result of `eventLinkElem.find('h3').text()`. -/
  heading : JSString
  /-- Texts of the elements selected by `p:has(span.icon-du-clock)`, in
  document order; `.text()` of the selection is their concatenation. -/
  clockParagraphs : List JSString
  /-- Result of `eventLinkElem.attr('href')`; `none` is `undefined`. -/
  href : Option JSString
  deriving DecidableEq, Repr

/-- A fetched page, by the queries the code makes on pages. -/
structure Page where
  /-- Elements selected by `#events-listing .events-listing__item`. -/
  eventCards : List EventCard
  /-- Result of `$$('div.description[itemprop="description"]').text()`. -/
  descriptionText : JSString
  deriving DecidableEq, Repr

/-- Outcome of `axios.get` by URL: `none` when the request fails. -/
abbrev Http := JSString → Option Page

/-- The object `eventObj`; an absent key is `none`. -/
structure EventRecord where
  title : JSString
  date : JSString
  time : Option JSString
  description : Option JSString
  deriving DecidableEq, Repr

/-- Model of `fetchEventDescription`: the trimmed description text of the
detail page, or the empty string from the `catch` branch. -/
def fetchEventDescription (get : Http) (eventUrl : JSString) : JSString :=
  match get eventUrl with
  | some page => jsTrim page.descriptionText
  | none => []

/-- The detail URL of a card: `attr('href')`, prefixed by the site origin
when it is non-empty and does not start with `http`. -/
def resolveEventUrl (href : Option JSString) : Option JSString :=
  match href with
  | none => none
  | some u =>
    if u ≠ [] ∧ ¬ ("http".toList <+: u) then some ("https://www.du.edu".toList ++ u)
    else some u

/-- The record built for a card once `time` and `description` are known:
`{ title, date }`, then the key `time` if `time` is truthy, then the key
`description` if `description` is truthy. -/
def assembleEvent (title date time description : JSString) : EventRecord :=
  { title := title
    date := date
    time := if time ≠ [] then some time else none
    description := if description ≠ [] then some description else none }

/-- The text `time` extracted from a card. -/
def cardTime (elem : EventCard) : JSString := jsTrim elem.clockParagraphs.flatten

/-- The text `description` obtained for a card: fetched when `eventUrl` is
truthy, the empty string otherwise. -/
def cardDescription (get : Http) (elem : EventCard) : JSString :=
  match resolveEventUrl elem.href with
  | none => []
  | some eventUrl => if eventUrl ≠ [] then fetchEventDescription get eventUrl else []

/-- Body of the `async` callback given to `.each` for the event cards: the
value of `allEvents` after the callback has run to completion on `elem`,
from the value `allEvents` it finds when it pushes. -/
def cardCallback (get : Http) (allEvents : List EventRecord) (elem : EventCard) :
    List EventRecord :=
  if elem.linkCount > 0 then
    let date := jsTrim elem.firstParagraph
    let title := jsTrim elem.heading
    let time := cardTime elem
    let description := cardDescription get elem
    let eventObj := assembleEvent title date time description
    allEvents ++ [eventObj]
  else allEvents

/-- State of `scrapeCalendarEvents` across the month loop. -/
structure CalendarState where
  /-- The accumulator `allEvents`. -/
  allEvents : List EventRecord
  /-- The cards whose callback is suspended at
  `await fetchEventDescription(eventUrl)`, in the order of their invocation. -/
  suspended : List EventCard
  /-- Trace of the listing URLs handed to `axios.get` so far, in order. -/
  requested : List JSString
  deriving DecidableEq, Repr

/-- Whether the callback of a card reaches `await fetchEventDescription`:
the card has a link and `eventUrl` is truthy. -/
def cardAwaits (elem : EventCard) : Bool :=
  decide (elem.linkCount > 0) &&
    match resolveEventUrl elem.href with
    | none => false
    | some eventUrl => decide (eventUrl ≠ [])

/-- Invocation of the callback by `.each`: a callback that reaches the
`await` is suspended before it pushes; any other callback runs to its end at
once. -/
def cardInvoke (get : Http) (st : CalendarState) (elem : EventCard) : CalendarState :=
  if cardAwaits elem then { st with suspended := st.suspended ++ [elem] }
  else { st with allEvents := cardCallback get st.allEvents elem }

/-- Resumption of the suspended callback at position `i`: it runs to its end
on the value of `allEvents` it finds.  A position beyond the suspended
callbacks resumes nothing. -/
def resume (get : Http) (st : CalendarState) (i : Nat) : CalendarState :=
  match st.suspended[i]? with
  | none => st
  | some elem =>
    { st with
      allEvents := cardCallback get st.allEvents elem
      suspended := st.suspended.eraseIdx i }

/-- The callbacks resumed, one after the other, while the main flow waits;
each position is taken among the callbacks still suspended. -/
def resumeMany (get : Http) (st : CalendarState) (order : List Nat) : CalendarState :=
  order.foldl (resume get) st

/-- The suspended callbacks resumed at each point where the main flow waits:
while the listing request of a window is awaited, during the pause after the
cards of a window, and between the end of the loop and the write. -/
structure Schedule where
  duringRequest : MonthWindow → List Nat
  duringPause : MonthWindow → List Nat
  beforeWrite : List Nat

/-- One iteration of the month loop: the listing request is issued and
awaited inside `try`; on success `.each` invokes the callback of every card
in document order and the pause follows; on failure the `catch` branch
leads to the next iteration. -/
def windowStep (get : Http) (sched : Schedule) (st : CalendarState) (w : MonthWindow) :
    CalendarState :=
  let url := listingUrl w
  let issued : CalendarState := { st with requested := st.requested ++ [url] }
  let awaited := resumeMany get issued (sched.duringRequest w)
  match get url with
  | some page =>
    resumeMany get (page.eventCards.foldl (cardInvoke get) awaited) (sched.duringPause w)
  | none => awaited

/-- Model of `scrapeCalendarEvents`: the state when the loop over `months`
ends and the write is handed to the timer.  Callbacks may still be
suspended then. -/
def scrapeCalendarEvents (get : Http) (sched : Schedule) : CalendarState :=
  buildMonths.foldl (windowStep get sched) { allEvents := [], suspended := [], requested := [] }

/-- The list `allEvents` that the timer callback writes as `{ events }`:
the callbacks resumed before the write have pushed, the others have not. -/
def writtenEvents (get : Http) (sched : Schedule) : List EventRecord :=
  (resumeMany get (scrapeCalendarEvents get sched) sched.beforeWrite).allEvents

/-! ## Predicates used in the statements -/

/-- Two strings equal up to the case folding of the `i` flag. -/
def EqIgnoreCase (s p : JSString) : Prop := s.map canonicalize = p.map canonicalize

instance (s p : JSString) : Decidable (EqIgnoreCase s p) :=
  inferInstanceAs (Decidable (s.map canonicalize = p.map canonicalize))

/-- Head of the remaining input is outside the class (or the input ended):
a greedy run stops exactly here. -/
def StopsAt (cls : Char → Bool) (rest : JSString) : Prop :=
  ∀ c ∈ rest.head?, cls c = false

/-- Text accepted by the group `(\s+\(.*Credits\))` when it ends the input:
white space, `(`, any text without line terminator, `Credits` in any letter
case, `)`. -/
def CreditsSuffix (t : JSString) : Prop :=
  ∃ ws inner cr, t = ws ++ '(' :: (inner ++ cr ++ [')']) ∧ ws ≠ [] ∧
    (∀ c ∈ ws, isSpace c = true) ∧ (∀ c ∈ inner, isDot c = true) ∧
    EqIgnoreCase cr "Credits".toList

/-- A reading of `s` along the pattern, with number `num` and title `title`:
`COMP` in any letter case, optional white space, the four digits `num`, white
space, the non-empty text `title` without line terminator, and optionally the
credits suffix. -/
def TitleParse (s num title : JSString) : Prop :=
  ∃ comp ws0 ws1 suffix, s = comp ++ ws0 ++ num ++ ws1 ++ title ++ suffix ∧
    EqIgnoreCase comp "COMP".toList ∧ (∀ c ∈ ws0, isSpace c = true) ∧
    num.length = 4 ∧ (∀ c ∈ num, isDigit c = true) ∧
    ws1 ≠ [] ∧ (∀ c ∈ ws1, isSpace c = true) ∧
    title ≠ [] ∧ (∀ c ∈ title, isDot c = true) ∧
    (suffix = [] ∨ CreditsSuffix suffix)

/-- The form of title that the pattern of the code accepts. -/
def TitleForm (s : JSString) : Prop := ∃ num title, TitleParse s num title

/-- A string with no white space at either end. -/
def Trimmed (s : JSString) : Prop :=
  (∀ c ∈ s.head?, isSpace c = false) ∧ (∀ c ∈ s.getLast?, isSpace c = false)

/-- The number written by a string of decimal digits. -/
def decimalValue (ds : JSString) : Nat :=
  ds.foldl (fun acc d => acc * 10 + (d.toNat - 0x30)) 0

/-- The form of title named by the specification: `COMP`, a space, four
digits, a space, a title, and an optional `(… Credits)` suffix. -/
def SpecTitleForm (s : JSString) : Prop :=
  ∃ num title suffix, s = "COMP ".toList ++ num ++ " ".toList ++ title ++ suffix ∧
    num.length = 4 ∧ (∀ c ∈ num, isDigit c = true) ∧ title ≠ [] ∧
    (suffix = [] ∨ ∃ inner, suffix = " (".toList ++ inner ++ " Credits)".toList)

/-- A surviving block, in the words of the specification: the trimmed title
matches the pattern, the number is at least 3000, and the description holds
no link. -/
def survives (b : CourseBlock) : Bool :=
  match matchTitle (jsTrim b.strongText) with
  | none => false
  | some (num, _) => decide (3000 ≤ decimalValue num) && decide (b.descLinks = 0)

/-- The record of a block whose title matches: the code joins `COMP` and the
digits with a hyphen, the title is the trimmed second capture. -/
def recordOf (b : CourseBlock) : CourseRecord :=
  match matchTitle (jsTrim b.strongText) with
  | none => { course := [], title := [] }
  | some (num, title) => { course := "COMP-".toList ++ num, title := jsTrim title }

/-- Some white-space character of the string is immediately followed by `(`. -/
def hasSpaceParen : JSString → Bool
  | a :: b :: rest => (isSpace a && b == '(') || hasSpaceParen (b :: rest)
  | _ => false

/-- A date string `YYYY-MM-DD`: four digits, a hyphen, two digits, a hyphen,
two digits. -/
def isDateForm : JSString → Bool
  | [y1, y2, y3, y4, h1, m1, m2, h2, d1, d2] =>
    isDigit y1 && isDigit y2 && isDigit y3 && isDigit y4 && h1 == '-' &&
    isDigit m1 && isDigit m2 && h2 == '-' && isDigit d1 && isDigit d2
  | _ => false

/-- The records that one card contributes once its callback has completed. -/
def cardEvents (get : Http) (elem : EventCard) : List EventRecord :=
  if elem.linkCount > 0 then
    [assembleEvent (jsTrim elem.heading) (jsTrim elem.firstParagraph) (cardTime elem)
      (cardDescription get elem)]
  else []

/-- The records of a state: those pushed, then those of the callbacks still
suspended. -/
def stateRecords (get : Http) (st : CalendarState) : List EventRecord :=
  st.allEvents ++ st.suspended.flatMap (cardEvents get)

/-- The records that one month window contributes: none when its listing
request fails, otherwise those of the cards of the listing, in order. -/
def windowEvents (get : Http) (w : MonthWindow) : List EventRecord :=
  match get (listingUrl w) with
  | none => []
  | some page => page.eventCards.flatMap (cardEvents get)

/-! ## Lemmas on the matcher combinators -/

theorem lit_eq_some {α : Type} {p : Char} {k : Cont α} {s : JSString} {r : α}
    (h : lit p k s = some r) : ∃ rest, s = p :: rest ∧ k rest = some r := by
  cases s with
  | nil => simp [lit] at h
  | cons c cs =>
    by_cases hc : c = p
    · subst hc
      exact ⟨cs, rfl, by simpa [lit] using h⟩
    · simp [lit, hc] at h

theorem lit_cons {α : Type} (p : Char) (k : Cont α) (rest : JSString) :
    lit p k (p :: rest) = k rest := by
  simp [lit]

theorem litCI_eq_some {α : Type} {k : Cont α} {r : α} :
    ∀ {p s : JSString}, litCI p k s = some r →
      ∃ pre rest, s = pre ++ rest ∧ EqIgnoreCase pre p ∧ k rest = some r
  | [], s, h => ⟨[], s, rfl, rfl, by simpa [litCI] using h⟩
  | _ :: _, [], h => by simp [litCI] at h
  | p :: ps, c :: cs, h => by
    by_cases hc : canonicalize c = canonicalize p
    · have h2 : litCI ps k cs = some r := by simpa [litCI, hc] using h
      obtain ⟨pre, rest, hs, hpre, hk⟩ := litCI_eq_some h2
      refine ⟨c :: pre, rest, by simp [hs], ?_, hk⟩
      unfold EqIgnoreCase at hpre ⊢
      simp [hc, hpre]
    · simp [litCI, hc] at h

theorem litCI_append {α : Type} (k : Cont α) :
    ∀ (p pre rest : JSString), EqIgnoreCase pre p → litCI p k (pre ++ rest) = k rest
  | [], pre, rest, h => by
    have : pre = [] := by simpa [EqIgnoreCase] using h
    subst this
    simp [litCI]
  | p :: ps, [], rest, h => by simp [EqIgnoreCase] at h
  | p :: ps, c :: cs, rest, h => by
    have h2 : canonicalize c = canonicalize p ∧ EqIgnoreCase cs ps := by
      simpa [EqIgnoreCase] using h
    simp [litCI, h2.1, litCI_append k ps cs rest h2.2]

theorem greedyStar_eq_some {α : Type} {cls : Char → Bool} {k : Cont α} {r : α} :
    ∀ {s : JSString}, greedyStar cls k s = some r →
      ∃ pre rest, s = pre ++ rest ∧ (∀ c ∈ pre, cls c = true) ∧ k rest = some r
  | [], h => ⟨[], [], rfl, by simp, by simpa [greedyStar] using h⟩
  | c :: cs, h => by
    by_cases hc : cls c = true
    · cases hrec : greedyStar cls k cs with
      | some r2 =>
        have hr : r2 = r := by simpa [greedyStar, hc, hrec] using h
        subst hr
        obtain ⟨pre, rest, hs, hpre, hk⟩ := greedyStar_eq_some hrec
        exact ⟨c :: pre, rest, by simp [hs], by simpa [hc] using hpre, hk⟩
      | none =>
        have hk : k (c :: cs) = some r := by simpa [greedyStar, hc, hrec] using h
        exact ⟨[], c :: cs, rfl, by simp, hk⟩
    · have hk : k (c :: cs) = some r := by simpa [greedyStar, hc] using h
      exact ⟨[], c :: cs, rfl, by simp, hk⟩

theorem greedyStar_isSome {α : Type} {cls : Char → Bool} {k : Cont α} :
    ∀ (pre rest : JSString), (∀ c ∈ pre, cls c = true) → (k rest).isSome = true →
      (greedyStar cls k (pre ++ rest)).isSome = true
  | [], rest, _, hk => by
    cases rest with
    | nil => simpa [greedyStar] using hk
    | cons c cs =>
      by_cases hc : cls c = true
      · cases hrec : greedyStar cls k cs with
        | some r2 => simp [greedyStar, hc, hrec]
        | none => simpa [greedyStar, hc, hrec] using hk
      · simpa [greedyStar, hc] using hk
  | c :: pre, rest, hpre, hk => by
    have hc : cls c = true := hpre c (by simp)
    have ih := greedyStar_isSome pre rest (fun d hd => hpre d (by simp [hd])) hk
    cases hrec : greedyStar cls k (pre ++ rest) with
    | some r2 => simp [greedyStar, hc, hrec]
    | none => simp [hrec] at ih

theorem greedyStar_stop {α : Type} {cls : Char → Bool} {k : Cont α} {rest : JSString}
    (h : StopsAt cls rest) : greedyStar cls k rest = k rest := by
  cases rest with
  | nil => simp [greedyStar]
  | cons c cs =>
    have hc : cls c = false := h c (by simp)
    simp [greedyStar, hc]

theorem greedyStar_longest {α : Type} {cls : Char → Bool} {k : Cont α} {r : α} :
    ∀ (pre rest : JSString), (∀ c ∈ pre, cls c = true) → StopsAt cls rest →
      k rest = some r → greedyStar cls k (pre ++ rest) = some r
  | [], rest, _, hstop, hk => by simpa [greedyStar_stop hstop] using hk
  | c :: pre, rest, hpre, hstop, hk => by
    have hc : cls c = true := hpre c (by simp)
    have ih := greedyStar_longest pre rest (fun d hd => hpre d (by simp [hd])) hstop hk
    simp [greedyStar, hc, ih]

theorem greedyPlus_eq_some {α : Type} {cls : Char → Bool} {k : Cont α} {r : α}
    {s : JSString} (h : greedyPlus cls k s = some r) :
    ∃ pre rest, s = pre ++ rest ∧ pre ≠ [] ∧ (∀ c ∈ pre, cls c = true) ∧ k rest = some r := by
  cases s with
  | nil => simp [greedyPlus] at h
  | cons c cs =>
    by_cases hc : cls c = true
    · have h2 : greedyStar cls k cs = some r := by simpa [greedyPlus, hc] using h
      obtain ⟨pre, rest, hs, hpre, hk⟩ := greedyStar_eq_some h2
      exact ⟨c :: pre, rest, by simp [hs], by simp, by simpa [hc] using hpre, hk⟩
    · simp [greedyPlus, hc] at h

theorem greedyPlus_isSome {α : Type} {cls : Char → Bool} {k : Cont α}
    (pre rest : JSString) (hne : pre ≠ []) (hpre : ∀ c ∈ pre, cls c = true)
    (hk : (k rest).isSome = true) : (greedyPlus cls k (pre ++ rest)).isSome = true := by
  cases pre with
  | nil => exact absurd rfl hne
  | cons c pre =>
    have hc : cls c = true := hpre c (by simp)
    simpa [greedyPlus, hc] using
      greedyStar_isSome pre rest (fun d hd => hpre d (by simp [hd])) hk

theorem greedyPlus_longest {α : Type} {cls : Char → Bool} {k : Cont α} {r : α}
    (pre rest : JSString) (hne : pre ≠ []) (hpre : ∀ c ∈ pre, cls c = true)
    (hstop : StopsAt cls rest) (hk : k rest = some r) :
    greedyPlus cls k (pre ++ rest) = some r := by
  cases pre with
  | nil => exact absurd rfl hne
  | cons c pre =>
    have hc : cls c = true := hpre c (by simp)
    simpa [greedyPlus, hc] using
      greedyStar_longest pre rest (fun d hd => hpre d (by simp [hd])) hstop hk

theorem captureCount_eq_some {α : Type} {cls : Char → Bool} {r : α} :
    ∀ {n : Nat} {acc : JSString} {k : JSString → Cont α} {s : JSString},
      captureCount cls n acc k s = some r →
      ∃ pre rest, s = pre ++ rest ∧ pre.length = n ∧ (∀ c ∈ pre, cls c = true) ∧
        k (acc ++ pre) rest = some r
  | 0, acc, k, s, h => ⟨[], s, rfl, rfl, by simp, by simpa [captureCount] using h⟩
  | _ + 1, _, _, [], h => by simp [captureCount] at h
  | n + 1, acc, k, c :: cs, h => by
    by_cases hc : cls c = true
    · have h2 : captureCount cls n (acc ++ [c]) k cs = some r := by
        simpa [captureCount, hc] using h
      obtain ⟨pre, rest, hs, hlen, hpre, hk⟩ := captureCount_eq_some h2
      exact ⟨c :: pre, rest, by simp [hs], by simp [hlen], by simpa [hc] using hpre,
        by simpa using hk⟩
    · simp [captureCount, hc] at h

theorem captureCount_append {α : Type} {cls : Char → Bool} :
    ∀ (pre : JSString) (acc : JSString) (k : JSString → Cont α) (rest : JSString),
      (∀ c ∈ pre, cls c = true) →
      captureCount cls pre.length acc k (pre ++ rest) = k (acc ++ pre) rest
  | [], acc, k, rest, _ => by simp [captureCount]
  | c :: pre, acc, k, rest, hpre => by
    have hc : cls c = true := hpre c (by simp)
    have ih := captureCount_append pre (acc ++ [c]) k rest (fun d hd => hpre d (by simp [hd]))
    simpa [captureCount, hc] using ih

theorem lazyPlus_eq_some {α : Type} {cls : Char → Bool} {k : JSString → Cont α} {r : α} :
    ∀ {s acc : JSString}, lazyPlus cls k acc s = some r →
      ∃ pre rest, s = pre ++ rest ∧ pre ≠ [] ∧ (∀ c ∈ pre, cls c = true) ∧
        k (acc ++ pre) rest = some r
  | [], acc, h => by simp [lazyPlus] at h
  | c :: cs, acc, h => by
    by_cases hc : cls c = true
    · cases hk : k (acc ++ [c]) cs with
      | some r2 =>
        have hr : r2 = r := by simpa [lazyPlus, hc, hk] using h
        subst hr
        exact ⟨[c], cs, rfl, by simp, by simpa using hc, hk⟩
      | none =>
        have h2 : lazyPlus cls k (acc ++ [c]) cs = some r := by
          simpa [lazyPlus, hc, hk] using h
        obtain ⟨pre, rest, hs, _, hpre, hk2⟩ := lazyPlus_eq_some h2
        exact ⟨c :: pre, rest, by simp [hs], by simp, by simpa [hc] using hpre,
          by simpa using hk2⟩
    · simp [lazyPlus, hc] at h

theorem lazyPlus_cons {α : Type} (cls : Char → Bool) (k : JSString → Cont α)
    (acc : JSString) (c : Char) (cs : JSString) :
    lazyPlus cls k acc (c :: cs) =
      if cls c then
        match k (acc ++ [c]) cs with
        | some r => some r
        | none => lazyPlus cls k (acc ++ [c]) cs
      else none := by
  rw [lazyPlus]

theorem lazyPlus_isSome {α : Type} {cls : Char → Bool} {k : JSString → Cont α} :
    ∀ (pre acc rest : JSString), pre ≠ [] → (∀ c ∈ pre, cls c = true) →
      (k (acc ++ pre) rest).isSome = true → (lazyPlus cls k acc (pre ++ rest)).isSome = true
  | [], _, _, hne, _, _ => absurd rfl hne
  | c :: pre, acc, rest, _, hpre, hk => by
    have hc : cls c = true := hpre c (by simp)
    rw [List.cons_append, lazyPlus_cons, if_pos hc]
    cases hk1 : k (acc ++ [c]) (pre ++ rest) with
    | some r2 => simp
    | none =>
      cases pre with
      | nil =>
        simp only [List.nil_append] at hk1
        simp [hk1] at hk
      | cons d pre =>
        have ih := lazyPlus_isSome (d :: pre) (acc ++ [c]) rest (by simp)
          (fun e he => hpre e (by simp [he])) (by simpa using hk)
        simpa using ih

/-- The lazy run is the shortest one whose continuation succeeds. -/
theorem lazyPlus_shortest {α : Type} {cls : Char → Bool} {k : JSString → Cont α} {r : α} :
    ∀ (pre acc rest : JSString), pre ≠ [] → (∀ c ∈ pre, cls c = true) →
      (∀ a b, a ≠ [] → b ≠ [] → pre = a ++ b → k (acc ++ a) (b ++ rest) = none) →
      k (acc ++ pre) rest = some r → lazyPlus cls k acc (pre ++ rest) = some r
  | [], _, _, hne, _, _, _ => absurd rfl hne
  | [c], acc, rest, _, hpre, _, hk => by
    have hc : cls c = true := hpre c (by simp)
    rw [List.cons_append, lazyPlus_cons, if_pos hc]
    simp only [List.nil_append]
    rw [hk]
  | c :: d :: pre, acc, rest, _, hpre, hfail, hk => by
    have hc : cls c = true := hpre c (by simp)
    have h1 : k (acc ++ [c]) ((d :: pre) ++ rest) = none :=
      hfail [c] (d :: pre) (by simp) (by simp) (by simp)
    have ih := lazyPlus_shortest (d :: pre) (acc ++ [c]) rest (by simp)
      (fun e he => hpre e (by simp [he]))
      (fun a b ha hb hab => by
        have := hfail (c :: a) b (by simp) hb (by simp [hab])
        simpa using this)
      (by simpa using hk)
    rw [List.cons_append, lazyPlus_cons, if_pos hc, h1]
    exact ih

theorem eos_eq_some {α : Type} {r0 r : α} {s : JSString} (h : eos r0 s = some r) :
    s = [] ∧ r = r0 := by
  cases s with
  | nil => exact ⟨rfl, by simpa [eos] using h.symm⟩
  | cons c cs => simp [eos] at h

theorem creditsGroup_eos_eq_some {α : Type} {r0 r : α} {s : JSString}
    (h : creditsGroup (eos r0) s = some r) : CreditsSuffix s ∧ r = r0 := by
  unfold creditsGroup at h
  obtain ⟨ws, rest1, hs, hne, hws, h1⟩ := greedyPlus_eq_some h
  obtain ⟨rest2, hr1, h2⟩ := lit_eq_some h1
  obtain ⟨inner, rest3, hr2, hinner, h3⟩ := greedyStar_eq_some h2
  obtain ⟨cr, rest4, hr3, hcr, h4⟩ := litCI_eq_some h3
  obtain ⟨rest5, hr4, h5⟩ := lit_eq_some h4
  obtain ⟨hr5, hr⟩ := eos_eq_some h5
  refine ⟨⟨ws, inner, cr, ?_, hne, hws, hinner, hcr⟩, hr⟩
  subst hr5 hr4 hr3 hr2 hr1
  simp [hs]

theorem creditsGroup_eos_isSome {α : Type} (r0 : α) {s : JSString}
    (h : CreditsSuffix s) : (creditsGroup (eos r0) s).isSome = true := by
  obtain ⟨ws, inner, cr, hs, hne, hws, hinner, hcr⟩ := h
  subst hs
  unfold creditsGroup
  apply greedyPlus_isSome ws _ hne hws
  rw [lit_cons]
  have : inner ++ cr ++ [')'] = inner ++ (cr ++ [')']) := by simp
  rw [this]
  apply greedyStar_isSome inner _ hinner
  rw [litCI_append _ _ cr _ hcr, lit_cons]
  rfl

theorem optCredits_eq_some {α : Type} {r0 r : α} {s : JSString}
    (h : optGroup creditsGroup (eos r0) s = some r) :
    (s = [] ∨ CreditsSuffix s) ∧ r = r0 := by
  unfold optGroup at h
  cases hg : creditsGroup (eos r0) s with
  | some r2 =>
    have hr : r2 = r := by simpa [hg] using h
    subst hr
    exact ⟨Or.inr (creditsGroup_eos_eq_some hg).1, (creditsGroup_eos_eq_some hg).2⟩
  | none =>
    have h2 : eos r0 s = some r := by simpa [hg] using h
    exact ⟨Or.inl (eos_eq_some h2).1, (eos_eq_some h2).2⟩

theorem optCredits_isSome {α : Type} (r0 : α) {s : JSString}
    (h : s = [] ∨ CreditsSuffix s) : (optGroup creditsGroup (eos r0) s).isSome = true := by
  unfold optGroup
  cases hg : creditsGroup (eos r0) s with
  | some r2 => rfl
  | none =>
    rcases h with h | h
    · subst h; rfl
    · have := creditsGroup_eos_isSome r0 h
      simp [hg] at this

/-- A successful match reads the string along the pattern, and its captures
are the number and the title of that reading. -/
theorem matchTitle_sound {s m1 m2 : JSString} (h : matchTitle s = some (m1, m2)) :
    TitleParse s m1 m2 := by
  unfold matchTitle at h
  obtain ⟨comp, r1, hs, hcomp, h1⟩ := litCI_eq_some h
  obtain ⟨ws0, r2, hr1, hws0, h2⟩ := greedyStar_eq_some h1
  obtain ⟨num, r3, hr2, hlen, hnum, h3⟩ := captureCount_eq_some h2
  obtain ⟨ws1, r4, hr3, hne1, hws1, h4⟩ := greedyPlus_eq_some h3
  obtain ⟨title, r5, hr4, hne2, htitle, h5⟩ := lazyPlus_eq_some h4
  obtain ⟨hsuf, hr⟩ := optCredits_eq_some h5
  simp only [List.nil_append, Prod.mk.injEq] at hr
  obtain ⟨rfl, rfl⟩ := hr
  refine ⟨comp, ws0, ws1, r5, ?_, hcomp, hws0, hlen, hnum, hne1, hws1, hne2, htitle, hsuf⟩
  subst hr4 hr3 hr2 hr1
  simp [hs]

/-- Every string that can be read along the pattern is matched. -/
theorem matchTitle_complete {s num title : JSString} (h : TitleParse s num title) :
    (matchTitle s).isSome = true := by
  obtain ⟨comp, ws0, ws1, suffix, hs, hcomp, hws0, hlen, hnum, hne1, hws1, hne2, htitle,
    hsuf⟩ := h
  have hs2 : s = comp ++ (ws0 ++ (num ++ (ws1 ++ (title ++ suffix)))) := by simp [hs]
  subst hs2
  unfold matchTitle
  rw [litCI_append _ _ comp _ hcomp]
  apply greedyStar_isSome ws0 _ hws0
  rw [← hlen, captureCount_append num [] _ _ hnum]
  apply greedyPlus_isSome ws1 _ hne1 hws1
  apply lazyPlus_isSome title [] _ hne2 htitle
  exact optCredits_isSome _ hsuf

theorem matchTitle_isSome_iff (s : JSString) : (matchTitle s).isSome = true ↔ TitleForm s := by
  constructor
  · intro h
    obtain ⟨⟨m1, m2⟩, hm⟩ := Option.isSome_iff_exists.mp h
    exact ⟨m1, m2, matchTitle_sound hm⟩
  · rintro ⟨num, title, h⟩
    exact matchTitle_complete h

/-! ## Lemmas on trimming and on `parseInt` -/

theorem isSpace_false_of_isDigit {c : Char} (h : isDigit c = true) : isSpace c = false := by
  simp only [isDigit, Bool.and_eq_true, decide_eq_true_eq] at h
  simp only [isSpace, Bool.or_eq_false_iff, Bool.and_eq_false_imp, decide_eq_false_iff_not,
    decide_eq_true_eq]
  omega

theorem trimStart_of_head {s : JSString} (h : ∀ c ∈ s.head?, isSpace c = false) :
    trimStart s = s := by
  cases s with
  | nil => rfl
  | cons c cs =>
    have hc : isSpace c = false := h c (by simp)
    simp [trimStart, List.dropWhile, hc]

theorem trimEnd_of_last {s : JSString} (h : ∀ c ∈ s.getLast?, isSpace c = false) :
    trimEnd s = s := by
  unfold trimEnd
  rw [List.rdropWhile_eq_self_iff]
  intro hl
  have : isSpace (s.getLast hl) = false := h _ (by simp [List.getLast?_eq_getLast _ hl])
  simp [this]

theorem jsTrim_of_trimmed {s : JSString} (h : Trimmed s) : jsTrim s = s := by
  unfold jsTrim
  rw [trimStart_of_head h.1, trimEnd_of_last h.2]

theorem trimEnd_append_spaces (s : JSString) :
    ∃ ws, s = trimEnd s ++ ws ∧ ∀ c ∈ ws, isSpace c = true := by
  refine ⟨s.rtakeWhile isSpace, ?_, fun c hc => List.mem_rtakeWhile_imp hc⟩
  unfold trimEnd List.rdropWhile List.rtakeWhile
  rw [← List.reverse_append, List.takeWhile_append_dropWhile, List.reverse_reverse]

theorem trimStart_spaces_append (s : JSString) :
    ∃ ws, s = ws ++ trimStart s ∧ ∀ c ∈ ws, isSpace c = true :=
  ⟨s.takeWhile isSpace, (List.takeWhile_append_dropWhile isSpace s).symm,
    fun _ hc => List.mem_takeWhile_imp hc⟩

/-- A string is its trimmed text between two runs of white space. -/
theorem jsTrim_decompose (s : JSString) :
    ∃ ws1 ws2, s = ws1 ++ jsTrim s ++ ws2 ∧ (∀ c ∈ ws1, isSpace c = true) ∧
      (∀ c ∈ ws2, isSpace c = true) := by
  obtain ⟨ws1, h1, hws1⟩ := trimStart_spaces_append s
  obtain ⟨ws2, h2, hws2⟩ := trimEnd_append_spaces (trimStart s)
  refine ⟨ws1, ws2, ?_, hws1, hws2⟩
  unfold jsTrim
  rw [List.append_assoc, ← h2, ← h1]

theorem trimStart_head (s : JSString) : ∀ c ∈ (trimStart s).head?, isSpace c = false := by
  intro c hc
  have := List.head?_dropWhile_not isSpace s
  unfold trimStart at hc
  rw [Option.mem_def] at hc
  rw [hc] at this
  simpa using this

theorem trimEnd_last (s : JSString) : ∀ c ∈ (trimEnd s).getLast?, isSpace c = false := by
  intro c hc
  by_cases hl : trimEnd s = []
  · simp [hl] at hc
  · have := List.rdropWhile_last_not isSpace s hl
    rw [Option.mem_def, List.getLast?_eq_getLast _ hl] at hc
    have hc2 : (trimEnd s).getLast hl = c := by simpa using hc
    unfold trimEnd at hc2
    rw [hc2] at this
    simpa using this

theorem trimEnd_head {s : JSString} (h : ∀ c ∈ s.head?, isSpace c = false) :
    ∀ c ∈ (trimEnd s).head?, isSpace c = false := by
  intro c hc
  obtain ⟨ws, hs, _⟩ := trimEnd_append_spaces s
  cases ht : trimEnd s with
  | nil => simp [ht] at hc
  | cons d ds =>
    rw [ht] at hc hs
    have hd : d = c := by simpa using hc
    subst hd
    exact h d (by rw [hs]; simp)

theorem jsTrim_trimmed (s : JSString) : Trimmed (jsTrim s) :=
  ⟨trimEnd_head (trimStart_head s), trimEnd_last _⟩

theorem parseInt10_digits {ds : JSString} (hne : ds ≠ []) (hds : ∀ c ∈ ds, isDigit c = true) :
    parseInt10 ds = some (decimalValue ds : Int) := by
  cases ds with
  | nil => exact absurd rfl hne
  | cons c cs =>
    have hc : isDigit c = true := hds c (by simp)
    have hsp : isSpace c = false := isSpace_false_of_isDigit hc
    have hm : c ≠ '-' := by
      rintro rfl
      revert hc; decide
    have hp : c ≠ '+' := by
      rintro rfl
      revert hc; decide
    have htw : List.takeWhile isDigit (c :: cs) = c :: cs :=
      List.takeWhile_eq_self_iff.mpr hds
    have hfold : ∀ (l : JSString) (a : Nat),
        List.foldl (fun (acc : Int) d => acc * 10 + digitValue d) (a : Int) l =
          ((List.foldl (fun acc d => acc * 10 + (d.toNat - 0x30)) a l : Nat) : Int) := by
      intro l
      induction l with
      | nil => intro a; rfl
      | cons d l ih =>
        intro a
        simp only [List.foldl_cons]
        have : (a : Int) * 10 + digitValue d = ((a * 10 + (d.toNat - 0x30) : Nat) : Int) := by
          simp [digitValue]
        rw [this, ih]
    unfold parseInt10
    simp only [trimStart, List.dropWhile, hsp, hm, hp, if_false, htw]
    simp only [decimalValue]
    rw [← hfold]
    simp

theorem decimalValue_lt {ds : JSString} (hlen : ds.length = 4)
    (hds : ∀ c ∈ ds, isDigit c = true) : decimalValue ds < 10000 := by
  match ds, hlen with
  | [a, b, c, d], _ =>
    have ha := hds a (by simp)
    have hb := hds b (by simp)
    have hc := hds c (by simp)
    have hd := hds d (by simp)
    simp only [isDigit, Bool.and_eq_true, decide_eq_true_eq] at ha hb hc hd
    simp only [decimalValue, List.foldl_cons, List.foldl_nil]
    omega

/-! ## The bulletin callback -/

theorem matchTitle_nil : matchTitle [] = none := by decide

/-- The callback by cases on the match, the number and the link count. -/
theorem courseCallback_eq (courses : List CourseRecord) (b : CourseBlock) :
    courseCallback courses b =
      if survives b = true then courses ++ [recordOf b] else courses := by
  unfold courseCallback survives recordOf
  by_cases hnil : jsTrim b.strongText = []
  · simp [hnil, matchTitle_nil]
  · cases hm : matchTitle (jsTrim b.strongText) with
    | none => simp [hnil, hm]
    | some m =>
      obtain ⟨m1, m2⟩ := m
      obtain ⟨comp, ws0, ws1, suffix, -, -, -, hlen, hnum, -⟩ := matchTitle_sound hm
      have hne : m1 ≠ [] := by
        intro h
        simp [h] at hlen
      have hp := parseInt10_digits hne hnum
      by_cases hN : decimalValue m1 < 3000
      · have h1 : ((decimalValue m1 : Int) < 3000) := by exact_mod_cast hN
        have h2 : ¬ (3000 ≤ decimalValue m1) := by omega
        simp [hnil, hm, hp, jsLt, h1, h2]
      · have h1 : ¬ ((decimalValue m1 : Int) < 3000) := by
          intro h
          exact hN (by exact_mod_cast h)
        have h2 : 3000 ≤ decimalValue m1 := by omega
        by_cases hl : b.descLinks = 0
        · simp [hnil, hm, hp, jsLt, h1, h2, hl]
        · have hl2 : 0 < b.descLinks := Nat.pos_of_ne_zero hl
          simp [hnil, hm, hp, jsLt, h1, h2, hl, hl2]

theorem collectCourses_from (blocks : List CourseBlock) :
    ∀ acc : List CourseRecord,
      blocks.foldl courseCallback acc = acc ++ (blocks.filter survives).map recordOf := by
  induction blocks with
  | nil => intro acc; simp
  | cons b bs ih =>
    intro acc
    rw [List.foldl_cons, ih, courseCallback_eq]
    by_cases hs : survives b = true
    · simp [hs]
    · simp [hs]

/-! ## The title captured before a credits suffix -/

theorem hasSpaceParen_append_right (a : JSString) {b : JSString}
    (h : hasSpaceParen b = true) : hasSpaceParen (a ++ b) = true := by
  induction a with
  | nil => simpa using h
  | cons x a ih =>
    cases hl : a ++ b with
    | nil => rw [hl] at ih; simp [hasSpaceParen] at ih
    | cons y l =>
      rw [hl] at ih
      simp [hl, hasSpaceParen, ih]

theorem hasSpaceParen_of_split :
    ∀ (b ws tail rest : JSString), b ≠ [] → (∀ c ∈ b.getLast?, isSpace c = false) →
      ws ≠ [] → (∀ c ∈ ws, isSpace c = true) → b ++ rest = ws ++ '(' :: tail →
      hasSpaceParen b = true
  | [], _, _, _, hne, _, _, _, _ => absurd rfl hne
  | _ :: _, [], _, _, _, _, hne, _, _ => absurd rfl hne
  | [x], w :: ws, tail, rest, _, hlast, _, hws, h => by
    have hx : x = w := by
      have := List.head_eq_of_cons_eq h
      simpa using this
    have h1 : isSpace w = true := hws w (by simp)
    have h2 : isSpace x = false := hlast x (by simp)
    rw [hx, h1] at h2
    cases h2
  | x :: y :: b, w :: ws, tail, rest, _, hlast, _, hws, h => by
    have hx : x = w := List.head_eq_of_cons_eq h
    have ht : (y :: b) ++ rest = ws ++ '(' :: tail := List.tail_eq_of_cons_eq h
    have h1 : isSpace x = true := by rw [hx]; exact hws w (by simp)
    cases ws with
    | nil =>
      have hy : y = '(' := List.head_eq_of_cons_eq ht
      simp [hasSpaceParen, h1, hy]
    | cons v ws =>
      have ih := hasSpaceParen_of_split (y :: b) (v :: ws) tail rest (by simp)
        (fun c hc => hlast c (by simpa using hc)) (by simp)
        (fun c hc => hws c (by simp [List.mem_cons] at hc ⊢; tauto)) ht
      simp [hasSpaceParen, ih]

/-- No credits suffix starts inside a title that has no white space
followed by `(` and does not end in white space. -/
theorem not_creditsSuffix_inside {a b rest : JSString} (hb : b ≠ [])
    (hlast : ∀ c ∈ (a ++ b).getLast?, isSpace c = false)
    (hsp : hasSpaceParen (a ++ b) = false) : ¬ CreditsSuffix (b ++ rest) := by
  rintro ⟨ws, inner, cr, hs, hne, hws, -, -⟩
  have hlast2 : ∀ c ∈ b.getLast?, isSpace c = false := by
    intro c hc
    apply hlast c
    rw [List.getLast?_append_of_ne_nil _ hb]
    exact hc
  have := hasSpaceParen_append_right a
    (hasSpaceParen_of_split b ws _ rest hb hlast2 hne hws hs)
  rw [this] at hsp
  cases hsp

/-- The match on a title followed by a credits suffix: the second capture
is the title without the white space around it. -/
theorem matchTitle_credits (num ws1 core ws2 k : JSString)
    (hlen : num.length = 4) (hnum : ∀ c ∈ num, isDigit c = true)
    (hws1 : ∀ c ∈ ws1, isSpace c = true) (hws2 : ∀ c ∈ ws2, isSpace c = true)
    (hne : core ≠ []) (htrim : Trimmed core) (hdot : ∀ c ∈ core, isDot c = true)
    (hsp : hasSpaceParen core = false) (hk : ∀ c ∈ k, isDot c = true) :
    matchTitle ("COMP ".toList ++ num ++ " ".toList ++ (ws1 ++ core ++ ws2) ++ " (".toList ++ k ++
      " Credits)".toList) = some (num, core) := by
  have hsuf : CreditsSuffix (ws2 ++ " (".toList ++ k ++ " Credits)".toList) :=
    ⟨ws2 ++ [' '], k ++ [' '], "Credits".toList, by simp, by simp,
      fun c hc => by
        rcases List.mem_append.mp hc with h | h
        · exact hws2 c h
        · have : c = ' ' := by simpa using h
          subst this; decide,
      fun c hc => by
        rcases List.mem_append.mp hc with h | h
        · exact hk c h
        · have : c = ' ' := by simpa using h
          subst this; decide,
      rfl⟩
  have h5 : optGroup creditsGroup (eos (num, core))
      (ws2 ++ " (".toList ++ k ++ " Credits)".toList) = some (num, core) := by
    obtain ⟨r, hr⟩ := Option.isSome_iff_exists.mp (optCredits_isSome (num, core) (Or.inr hsuf))
    rw [hr, (optCredits_eq_some hr).2]
  have h4 := @lazyPlus_shortest _ isDot
    (fun title => optGroup creditsGroup (eos (num, title))) (num, core)
    core [] (ws2 ++ " (".toList ++ k ++ " Credits)".toList) hne hdot
    (fun a b _ hb hab => by
      cases hfail : optGroup creditsGroup (eos (num, [] ++ a))
          (b ++ (ws2 ++ " (".toList ++ k ++ " Credits)".toList)) with
      | none => exact hfail
      | some r =>
        exfalso
        rcases (optCredits_eq_some hfail).1 with h | h
        · simp [hb] at h
        · exact not_creditsSuffix_inside hb (hab ▸ htrim.2) (hab ▸ hsp) h)
    h5
  have hstop1 : StopsAt isSpace (core ++ (ws2 ++ " (".toList ++ k ++ " Credits)".toList)) := by
    intro c hc
    apply htrim.1 c
    cases core with
    | nil => exact absurd rfl hne
    | cons d ds => simpa using hc
  have h3 := greedyPlus_longest (' ' :: ws1) _ (by simp)
    (fun c hc => by
      rcases List.mem_cons.mp hc with h | h
      · subst h; decide
      · exact hws1 c h)
    hstop1 h4
  have h2 := @captureCount_append _ isDigit num []
    (fun num => greedyPlus isSpace
      (lazyPlus isDot (fun title => optGroup creditsGroup (eos (num, title))) []))
    ((' ' :: ws1) ++ (core ++ (ws2 ++ " (".toList ++ k ++ " Credits)".toList))) hnum
  rw [hlen] at h2
  simp only [List.nil_append] at h2
  rw [h3] at h2
  have hstop0 : StopsAt isSpace
      (num ++ ((' ' :: ws1) ++ (core ++ (ws2 ++ " (".toList ++ k ++ " Credits)".toList)))) := by
    intro c hc
    cases num with
    | nil => simp at hlen
    | cons d ds =>
      have : d = c := by simpa using hc
      subst this
      exact isSpace_false_of_isDigit (hnum d (by simp))
  have h1 := greedyStar_longest [' '] _ (by decide) hstop0 h2
  have h0 := litCI_append
    (greedyStar isSpace
      (captureCount isDigit 4 [] fun num => greedyPlus isSpace
        (lazyPlus isDot (fun title => optGroup creditsGroup (eos (num, title))) [])))
    "COMP".toList "COMP".toList
    ([' '] ++ (num ++ ((' ' :: ws1) ++
      (core ++ (ws2 ++ " (".toList ++ k ++ " Credits)".toList))))) rfl
  rw [h1] at h0
  unfold matchTitle
  rw [← h0]
  congr 1
  simp

/-- The callback on a title followed by a credits suffix, when the trimmed
title holds no line terminator and no white space followed by `(`: the
record carries the whole trimmed title. -/
theorem courseCallback_credits_title (courses : List CourseRecord) (num T k : JSString)
    (hlen : num.length = 4) (hnum : ∀ c ∈ num, isDigit c = true)
    (hN : 3000 ≤ decimalValue num)
    (hT : jsTrim T ≠ []) (hdot : ∀ c ∈ jsTrim T, isDot c = true)
    (hsp : hasSpaceParen (jsTrim T) = false) (hk : ∀ c ∈ k, isDot c = true) :
    courseCallback courses
        { strongText := "COMP ".toList ++ num ++ " ".toList ++ T ++ " (".toList ++ k ++
            " Credits)".toList,
          descLinks := 0 } =
      courses ++ [{ course := "COMP-".toList ++ num, title := jsTrim T }] := by
  obtain ⟨ws1, ws2, hdec, hws1, hws2⟩ := jsTrim_decompose T
  have hm := matchTitle_credits num ws1 (jsTrim T) ws2 k hlen hnum hws1 hws2 hT
    (jsTrim_trimmed T) hdot hsp hk
  rw [← hdec] at hm
  have htr : Trimmed ("COMP ".toList ++ num ++ " ".toList ++ T ++ " (".toList ++ k ++
      " Credits)".toList) := by
    constructor
    · intro c hc
      have : c = 'C' := by simpa using hc.symm
      subst this; decide
    · intro c hc
      have h2 : " Credits)".toList = " Credits".toList ++ [')'] := by decide
      rw [h2, ← List.append_assoc, List.getLast?_concat] at hc
      have : c = ')' := by simpa using hc.symm
      subst this; decide
  rw [courseCallback_eq]
  simp only [survives, recordOf, jsTrim_of_trimmed htr, hm,
    jsTrim_of_trimmed (jsTrim_trimmed T)]
  simp [hN]


/-- The title `COMP 3705 Compilers (4 Credits)` gives the record `COMP-3705` /
`Compilers`. -/
theorem courseCallback_credits_title_example :
    courseCallback []
        { strongText := "COMP ".toList ++ "3705".toList ++ " ".toList ++ "Compilers".toList ++
            " (".toList ++ "4".toList ++ " Credits)".toList,
          descLinks := 0 } =
      [] ++ [{ course := "COMP-".toList ++ "3705".toList, title := jsTrim "Compilers".toList }] :=
  courseCallback_credits_title [] "3705".toList "Compilers".toList "4".toList
    (by decide) (by decide) (by decide) (by decide) (by decide) (by decide) (by decide)

/-! ## The calendar loop -/

theorem cardCallback_eq (get : Http) (allEvents : List EventRecord) (elem : EventCard) :
    cardCallback get allEvents elem = allEvents ++ cardEvents get elem := by
  unfold cardCallback cardEvents
  by_cases h : elem.linkCount > 0
  · simp [h]
  · simp [h]

theorem flatMap_eraseIdx_perm {α β : Type} (f : α → List β) :
    ∀ (l : List α) (i : Nat) (a : α), l[i]? = some a →
      List.Perm (l.flatMap f) (f a ++ (l.eraseIdx i).flatMap f)
  | [], _, _, h => by simp at h
  | x :: xs, 0, a, h => by
    have hx : x = a := by simpa using h
    subst hx
    simp
  | x :: xs, i + 1, a, h => by
    have h2 : xs[i]? = some a := by simpa using h
    have ih := flatMap_eraseIdx_perm f xs i a h2
    simp only [List.flatMap_cons, List.eraseIdx_cons_succ]
    exact (List.Perm.append_left (f x) ih).trans
      (List.perm_append_comm_assoc (f x) (f a) _)

/-- A resumption moves one record from the suspended callbacks to
`allEvents`, after the records already there. -/
theorem resume_spec (get : Http) (st : CalendarState) (i : Nat) :
    List.Perm (stateRecords get (resume get st i)) (stateRecords get st) ∧
    st.allEvents <+: (resume get st i).allEvents ∧
    (resume get st i).requested = st.requested := by
  unfold resume
  cases h : st.suspended[i]? with
  | none => exact ⟨List.Perm.refl _, List.prefix_refl _, rfl⟩
  | some elem =>
    refine ⟨?_, ?_, rfl⟩
    · simp only [stateRecords, cardCallback_eq, List.append_assoc]
      exact List.Perm.append_left _ (flatMap_eraseIdx_perm (cardEvents get) _ i elem h).symm
    · simp only [cardCallback_eq]
      exact List.prefix_append _ _

theorem resumeMany_spec (get : Http) (order : List Nat) :
    ∀ st : CalendarState,
      List.Perm (stateRecords get (resumeMany get st order)) (stateRecords get st) ∧
      st.allEvents <+: (resumeMany get st order).allEvents ∧
      (resumeMany get st order).requested = st.requested := by
  induction order with
  | nil => intro st; exact ⟨List.Perm.refl _, List.prefix_refl _, rfl⟩
  | cons i order ih =>
    intro st
    obtain ⟨h1, h2, h3⟩ := resume_spec get st i
    obtain ⟨k1, k2, k3⟩ := ih (resume get st i)
    exact ⟨k1.trans h1, h2.trans k2, k3.trans h3⟩

/-- An invocation adds the records of its card, pushed or held by the
suspended callback. -/
theorem cardInvoke_spec (get : Http) (st : CalendarState) (elem : EventCard) :
    List.Perm (stateRecords get (cardInvoke get st elem))
      (stateRecords get st ++ cardEvents get elem) ∧
    st.allEvents <+: (cardInvoke get st elem).allEvents ∧
    (cardInvoke get st elem).requested = st.requested := by
  unfold cardInvoke
  by_cases h : cardAwaits elem = true
  · rw [if_pos h]
    refine ⟨?_, List.prefix_refl _, rfl⟩
    simp [stateRecords]
  · rw [if_neg h]
    refine ⟨?_, ?_, rfl⟩
    · simp only [stateRecords, cardCallback_eq, List.append_assoc]
      exact List.Perm.append_left _ List.perm_append_comm
    · simp only [cardCallback_eq]
      exact List.prefix_append _ _

theorem foldl_cardInvoke_spec (get : Http) (cards : List EventCard) :
    ∀ st : CalendarState,
      List.Perm (stateRecords get (cards.foldl (cardInvoke get) st))
        (stateRecords get st ++ cards.flatMap (cardEvents get)) ∧
      st.allEvents <+: (cards.foldl (cardInvoke get) st).allEvents ∧
      (cards.foldl (cardInvoke get) st).requested = st.requested := by
  induction cards with
  | nil => intro st; simp
  | cons c cs ih =>
    intro st
    obtain ⟨h1, h2, h3⟩ := cardInvoke_spec get st c
    obtain ⟨k1, k2, k3⟩ := ih (cardInvoke get st c)
    refine ⟨?_, h2.trans k2, k3.trans h3⟩
    rw [List.foldl_cons, List.flatMap_cons, ← List.append_assoc]
    exact k1.trans (List.Perm.append_right _ h1)

/-- One iteration of the loop: the URL of the window is requested, the
records of the window are added when its request succeeds, none when it
fails, and the records pushed before stay in place. -/
theorem windowStep_spec (get : Http) (sched : Schedule) (st : CalendarState)
    (w : MonthWindow) :
    List.Perm (stateRecords get (windowStep get sched st w))
      (stateRecords get st ++ windowEvents get w) ∧
    st.allEvents <+: (windowStep get sched st w).allEvents ∧
    (windowStep get sched st w).requested = st.requested ++ [listingUrl w] := by
  obtain ⟨a1, a2, a3⟩ := resumeMany_spec get (sched.duringRequest w)
    { st with requested := st.requested ++ [listingUrl w] }
  have a1b : List.Perm
      (stateRecords get (resumeMany get { st with requested := st.requested ++ [listingUrl w] }
        (sched.duringRequest w))) (stateRecords get st) := a1
  cases hg : get (listingUrl w) with
  | none =>
    simp only [windowStep, windowEvents, hg, List.append_nil]
    exact ⟨a1b, a2, a3⟩
  | some page =>
    simp only [windowStep, windowEvents, hg]
    obtain ⟨b1, b2, b3⟩ := foldl_cardInvoke_spec get page.eventCards
      (resumeMany get { st with requested := st.requested ++ [listingUrl w] }
        (sched.duringRequest w))
    obtain ⟨c1, c2, c3⟩ := resumeMany_spec get (sched.duringPause w)
      (page.eventCards.foldl (cardInvoke get)
        (resumeMany get { st with requested := st.requested ++ [listingUrl w] }
          (sched.duringRequest w)))
    exact ⟨c1.trans (b1.trans (List.Perm.append_right _ a1b)), a2.trans (b2.trans c2),
      c3.trans (b3.trans a3)⟩

theorem foldl_windowStep_spec (get : Http) (sched : Schedule) (ws : List MonthWindow) :
    ∀ st : CalendarState,
      List.Perm (stateRecords get (ws.foldl (windowStep get sched) st))
        (stateRecords get st ++ ws.flatMap (windowEvents get)) ∧
      st.allEvents <+: (ws.foldl (windowStep get sched) st).allEvents ∧
      (ws.foldl (windowStep get sched) st).requested = st.requested ++ ws.map listingUrl := by
  induction ws with
  | nil => intro st; simp
  | cons w ws ih =>
    intro st
    obtain ⟨h1, h2, h3⟩ := windowStep_spec get sched st w
    obtain ⟨k1, k2, k3⟩ := ih (windowStep get sched st w)
    refine ⟨?_, h2.trans k2, ?_⟩
    · rw [List.foldl_cons, List.flatMap_cons, ← List.append_assoc]
      exact k1.trans (List.Perm.append_right _ h1)
    · rw [List.foldl_cons, k3, h3]
      simp

/-- A January listing with a card that has a link followed by a card that
has none, every other request failing: the card without link pushes while
`.each` runs, the card with a link when its callback resumes, so its record
comes second; if it has not resumed before the write, its record is not
written. -/
theorem writtenEvents_order_example :
    writtenEvents
        (fun url =>
          if url = listingUrl (monthWindow 1) then
            some { eventCards :=
                     [{ linkCount := 1, firstParagraph := "January 5".toList,
                        heading := "A".toList, clockParagraphs := [],
                        href := some "/events/a".toList },
                      { linkCount := 1, firstParagraph := "January 6".toList,
                        heading := "C".toList, clockParagraphs := [], href := none }],
                   descriptionText := [] }
          else none)
        { duringRequest := fun _ => [], duringPause := fun _ => [], beforeWrite := [0] } =
      [{ title := "C".toList, date := "January 6".toList, time := none, description := none },
       { title := "A".toList, date := "January 5".toList, time := none, description := none }] ∧
    writtenEvents
        (fun url =>
          if url = listingUrl (monthWindow 1) then
            some { eventCards :=
                     [{ linkCount := 1, firstParagraph := "January 5".toList,
                        heading := "A".toList, clockParagraphs := [],
                        href := some "/events/a".toList },
                      { linkCount := 1, firstParagraph := "January 6".toList,
                        heading := "C".toList, clockParagraphs := [], href := none }],
                   descriptionText := [] }
          else none)
        { duringRequest := fun _ => [], duringPause := fun _ => [], beforeWrite := [] } =
      [{ title := "C".toList, date := "January 6".toList, time := none,
         description := none }] := by
  decide

/-! ## Claims on the bulletin -/

/-- C1, as stated, fails: the trimmed title `COMP3705 Compilers` has no space
after `COMP`, so it does not have the form named by the specification, and the
callback still emits the record `COMP-3705` / `Compilers` for it. -/
theorem c1_counterexample :
    ¬ SpecTitleForm (jsTrim "COMP3705 Compilers".toList) ∧
    courseCallback [] { strongText := "COMP3705 Compilers".toList, descLinks := 0 } =
      [{ course := "COMP-3705".toList, title := "Compilers".toList }] := by
  refine ⟨?_, by decide⟩
  rintro ⟨num, title, suffix, hs, -⟩
  have ht : jsTrim "COMP3705 Compilers".toList = "COMP3705 Compilers".toList := by decide
  rw [ht] at hs
  simp at hs

/-- C1, amended: a block whose trimmed bold title is not of the form accepted
by the pattern of the code (`COMP` in any letter case, optional white space,
four digits, white space, a non-empty title without line terminator, and an
optional suffix of white space followed by `(…Credits)`) leaves `courses`
unchanged: no record is emitted for it. -/
theorem c1_no_record_without_title_form (courses : List CourseRecord) (b : CourseBlock)
    (h : ¬ TitleForm (jsTrim b.strongText)) : courseCallback courses b = courses := by
  have hm : matchTitle (jsTrim b.strongText) = none := by
    cases hm : matchTitle (jsTrim b.strongText) with
    | none => rfl
    | some m => exact absurd ((matchTitle_isSome_iff _).mp (by simp [hm])) h
  rw [courseCallback_eq]
  simp [survives, hm]

/-- C1, amended, on the title `Special Topics`. -/
theorem c1_no_record_without_title_form_witness :
    ¬ TitleForm (jsTrim "Special Topics".toList) ∧
    courseCallback [] { strongText := "Special Topics".toList, descLinks := 0 } = [] :=
  have h : ¬ TitleForm (jsTrim
      ({ strongText := "Special Topics".toList, descLinks := 0 } : CourseBlock).strongText) :=
    fun hf => absurd ((matchTitle_isSome_iff _).mpr hf) (by decide)
  ⟨h, c1_no_record_without_title_form [] _ h⟩

/-- C2: when the trimmed title matches the pattern with captured digits `m1`,
these are four decimal digits and `parseInt` reads them as their number `N`;
if `N < 3000` the callback leaves `courses` unchanged, and if `N ≥ 3000` and
the description holds no link it appends exactly one record. -/
theorem c2_number_threshold (courses : List CourseRecord) (b : CourseBlock)
    (m1 m2 : JSString) (h : matchTitle (jsTrim b.strongText) = some (m1, m2)) :
    m1.length = 4 ∧ (∀ c ∈ m1, isDigit c = true) ∧
    parseInt10 m1 = some (decimalValue m1 : Int) ∧ decimalValue m1 < 10000 ∧
    (decimalValue m1 < 3000 → courseCallback courses b = courses) ∧
    (3000 ≤ decimalValue m1 → b.descLinks = 0 →
      courseCallback courses b =
        courses ++ [{ course := "COMP-".toList ++ m1, title := jsTrim m2 }]) := by
  obtain ⟨comp, ws0, ws1, suffix, -, -, -, hlen, hnum, -⟩ := matchTitle_sound h
  have hne : m1 ≠ [] := by
    intro h0
    simp [h0] at hlen
  refine ⟨hlen, hnum, parseInt10_digits hne hnum, decimalValue_lt hlen hnum, ?_, ?_⟩
  · intro hN
    have : ¬ 3000 ≤ decimalValue m1 := by omega
    rw [courseCallback_eq]
    simp [survives, h, this]
  · intro hN hl
    rw [courseCallback_eq]
    simp [survives, recordOf, h, hN, hl]

/-- C2 on the blocks `COMP 2500 Data Structures (4 Credits)` and
`COMP 3705 Compilers (4 Credits)`, both without link. -/
theorem c2_number_threshold_witness :
    courseCallback [] { strongText := "COMP 2500 Data Structures (4 Credits)".toList,
                        descLinks := 0 } = [] ∧
    courseCallback [] { strongText := "COMP 3705 Compilers (4 Credits)".toList,
                        descLinks := 0 } =
      [{ course := "COMP-3705".toList, title := "Compilers".toList }] :=
  ⟨(c2_number_threshold [] ⟨"COMP 2500 Data Structures (4 Credits)".toList, 0⟩
      "2500".toList "Data Structures".toList (by decide)).2.2.2.2.1 (by decide),
   (c2_number_threshold [] ⟨"COMP 3705 Compilers (4 Credits)".toList, 0⟩
      "3705".toList "Compilers".toList (by decide)).2.2.2.2.2 (by decide) rfl⟩

/-- C3: a block whose description holds at least one anchor element leaves
`courses` unchanged, whatever its title and number. -/
theorem c3_link_excludes (courses : List CourseRecord) (b : CourseBlock)
    (h : 0 < b.descLinks) : courseCallback courses b = courses := by
  have hl : b.descLinks ≠ 0 := by omega
  rw [courseCallback_eq]
  cases hm : matchTitle (jsTrim b.strongText) with
  | none => simp [survives, hm]
  | some m => simp [survives, hm, hl]

/-- C3 on a block of number 3705 whose description holds one link. -/
theorem c3_link_excludes_witness :
    courseCallback [] { strongText := "COMP 3705 Compilers (4 Credits)".toList,
                        descLinks := 1 } = [] :=
  c3_link_excludes [] ⟨"COMP 3705 Compilers (4 Credits)".toList, 1⟩ (by decide)

/-- C4 fails on the code at the title
`COMP 3705 Topics (Variable Credits) Lab (4 Credits)`, which is
`COMP NNNN T (k Credits)` with `T = Topics (Variable Credits) Lab` and
`k = 4`: the block survives and the record emitted for it has the title
`Topics`, not `T`.  The same happens at
`COMP 3705 Programming (C++) II (4 Credits)`, whose record has the title
`Programming`.  On the page of the claim, with the blocks
`COMP 2500 Data Structures (4 Credits)` and `COMP 3705 Compilers (4 Credits)`,
both without link, the code gives the single record `COMP-3705` /
`Compilers`. -/
theorem c4_title_truncated :
    "COMP 3705 Topics (Variable Credits) Lab (4 Credits)".toList =
      "COMP ".toList ++ "3705".toList ++ " ".toList ++
        "Topics (Variable Credits) Lab".toList ++ " (".toList ++ "4".toList ++
        " Credits)".toList ∧
    courseCallback []
      { strongText := "COMP 3705 Topics (Variable Credits) Lab (4 Credits)".toList,
        descLinks := 0 } =
      [{ course := "COMP-3705".toList, title := "Topics".toList }] ∧
    ({ course := "COMP-3705".toList, title := "Topics".toList } : CourseRecord) ≠
      { course := "COMP-3705".toList, title := "Topics (Variable Credits) Lab".toList } ∧
    courseCallback []
      { strongText := "COMP 3705 Programming (C++) II (4 Credits)".toList,
        descLinks := 0 } =
      [{ course := "COMP-3705".toList, title := "Programming".toList }] ∧
    scrapeBulletin (some
        [{ strongText := "COMP 2500 Data Structures (4 Credits)".toList, descLinks := 0 },
         { strongText := "COMP 3705 Compilers (4 Credits)".toList, descLinks := 0 }]) =
      some { courses := [{ course := "COMP-3705".toList, title := "Compilers".toList }] } := by
  decide

/-- C10: the list written by `scrapeBulletin` holds the record of every
surviving block, one per block, nothing else, in the order of the blocks in
the document; a block survives exactly when its trimmed title matches the
pattern, its number is at least 3000 and its description holds no link, and
its record joins `COMP` and the digits with a hyphen and carries the trimmed
title. -/
theorem c10_courses_in_document_order (blocks : List CourseBlock) :
    scrapeBulletin (some blocks) =
      some { courses := (blocks.filter survives).map recordOf } ∧
    (∀ b, survives b = true ↔
      ∃ num title, matchTitle (jsTrim b.strongText) = some (num, title) ∧
        3000 ≤ decimalValue num ∧ b.descLinks = 0) ∧
    (∀ b num title, matchTitle (jsTrim b.strongText) = some (num, title) →
      recordOf b = { course := "COMP-".toList ++ num, title := jsTrim title }) := by
  refine ⟨?_, ?_, ?_⟩
  · simp [scrapeBulletin, collectCourses, collectCourses_from]
  · intro b
    unfold survives
    cases hm : matchTitle (jsTrim b.strongText) with
    | none => simp
    | some m =>
      obtain ⟨m1, m2⟩ := m
      simp
  · intro b num title hm
    simp [recordOf, hm]

/-! ## Claims on the calendar -/

/-- C5: the month loop produces exactly twelve windows for 2025, in calendar
order, with two-digit months, the twelfth ending on `2026-01-01`; the end of
each window is the start of the next. -/
theorem c5_month_windows :
    buildMonths =
      [{ start := "2025-01-01".toList, end_ := "2025-02-01".toList },
       { start := "2025-02-01".toList, end_ := "2025-03-01".toList },
       { start := "2025-03-01".toList, end_ := "2025-04-01".toList },
       { start := "2025-04-01".toList, end_ := "2025-05-01".toList },
       { start := "2025-05-01".toList, end_ := "2025-06-01".toList },
       { start := "2025-06-01".toList, end_ := "2025-07-01".toList },
       { start := "2025-07-01".toList, end_ := "2025-08-01".toList },
       { start := "2025-08-01".toList, end_ := "2025-09-01".toList },
       { start := "2025-09-01".toList, end_ := "2025-10-01".toList },
       { start := "2025-10-01".toList, end_ := "2025-11-01".toList },
       { start := "2025-11-01".toList, end_ := "2025-12-01".toList },
       { start := "2025-12-01".toList, end_ := "2026-01-01".toList }] ∧
    buildMonths.length = 12 ∧
    buildMonths.dropLast.map MonthWindow.end_ = buildMonths.tail.map MonthWindow.start := by
  have hlist : buildMonths =
      [{ start := "2025-01-01".toList, end_ := "2025-02-01".toList },
       { start := "2025-02-01".toList, end_ := "2025-03-01".toList },
       { start := "2025-03-01".toList, end_ := "2025-04-01".toList },
       { start := "2025-04-01".toList, end_ := "2025-05-01".toList },
       { start := "2025-05-01".toList, end_ := "2025-06-01".toList },
       { start := "2025-06-01".toList, end_ := "2025-07-01".toList },
       { start := "2025-07-01".toList, end_ := "2025-08-01".toList },
       { start := "2025-08-01".toList, end_ := "2025-09-01".toList },
       { start := "2025-09-01".toList, end_ := "2025-10-01".toList },
       { start := "2025-10-01".toList, end_ := "2025-11-01".toList },
       { start := "2025-11-01".toList, end_ := "2025-12-01".toList },
       { start := "2025-12-01".toList, end_ := "2026-01-01".toList }] := by
    decide
  refine ⟨hlist, by decide, ?_⟩
  rw [hlist]
  decide

/-- C6: for every month window built by the loop, the listing URL contains
`start_date=` followed by the start of the window and `end_date=` followed by
its end, and both dates have the form `YYYY-MM-DD`. -/
theorem c6_listing_url_dates (w : MonthWindow) (hw : w ∈ buildMonths) :
    ("start_date=".toList ++ w.start) <:+: listingUrl w ∧
    ("end_date=".toList ++ w.end_) <:+: listingUrl w ∧
    isDateForm w.start = true ∧ isDateForm w.end_ = true := by
  refine ⟨⟨baseUrl ++ "?search=&".toList,
      "&end_date=".toList ++ w.end_ ++ "#events-listing-date-filter-anchor".toList, ?_⟩,
    ⟨baseUrl ++ "?search=&start_date=".toList ++ w.start ++ "&".toList,
      "#events-listing-date-filter-anchor".toList, ?_⟩, ?_⟩
  · simp [listingUrl]
  · simp [listingUrl]
  · have hall : ∀ v ∈ buildMonths, isDateForm v.start = true ∧ isDateForm v.end_ = true := by
      decide
    exact hall w hw

/-- C6 on the window from `2025-03-01` to `2025-04-01`. -/
theorem c6_listing_url_dates_witness :
    ("start_date=".toList ++ "2025-03-01".toList) <:+:
      listingUrl { start := "2025-03-01".toList, end_ := "2025-04-01".toList } ∧
    ("end_date=".toList ++ "2025-04-01".toList) <:+:
      listingUrl { start := "2025-03-01".toList, end_ := "2025-04-01".toList } ∧
    isDateForm "2025-03-01".toList = true ∧ isDateForm "2025-04-01".toList = true :=
  c6_listing_url_dates { start := "2025-03-01".toList, end_ := "2025-04-01".toList }
    (by decide)

/-- C7: the record assembled for an event card has the key `time` exactly
when the extracted, trimmed time text is non-empty, and then with that text;
the key is never set to the empty string, and a card without clock-icon
paragraph gives a record without the key. -/
theorem c7_time_key (get : Http) (allEvents : List EventRecord) (elem : EventCard)
    (h : 0 < elem.linkCount) :
    ∃ r, cardCallback get allEvents elem = allEvents ++ [r] ∧
      (elem.clockParagraphs = [] → r.time = none) ∧
      (r.time.isSome = true ↔ cardTime elem ≠ []) ∧
      (∀ t, r.time = some t → t = cardTime elem) ∧
      r.time ≠ some [] := by
  refine ⟨assembleEvent (jsTrim elem.heading) (jsTrim elem.firstParagraph) (cardTime elem)
    (cardDescription get elem), ?_, ?_, ?_, ?_, ?_⟩
  · rw [cardCallback_eq]
    simp [cardEvents, h]
  · intro hc
    have : cardTime elem = [] := by
      rw [cardTime, hc]
      decide
    simp [assembleEvent, this]
  · by_cases ht : cardTime elem = []
    · simp [assembleEvent, ht]
    · simp [assembleEvent, ht]
  · intro t
    by_cases ht : cardTime elem = []
    · simp [assembleEvent, ht]
    · simp only [assembleEvent, ht]
      intro heq
      simp at heq
      exact heq.2.symm
  · by_cases ht : cardTime elem = []
    · simp [assembleEvent, ht]
    · simp only [assembleEvent, ht]
      intro heq
      simp at heq

/-- C7 on a card without clock-icon paragraph. -/
theorem c7_time_key_witness :
    ∃ r, cardCallback (fun _ => none) []
        { linkCount := 1, firstParagraph := "January 5".toList, heading := "Open House".toList,
          clockParagraphs := [], href := none } = [] ++ [r] ∧
      (([] : List JSString) = [] → r.time = none) ∧
      (r.time.isSome = true ↔
        cardTime { linkCount := 1, firstParagraph := "January 5".toList,
                   heading := "Open House".toList, clockParagraphs := [], href := none } ≠ []) ∧
      (∀ t, r.time = some t →
        t = cardTime { linkCount := 1, firstParagraph := "January 5".toList,
                       heading := "Open House".toList, clockParagraphs := [], href := none }) ∧
      r.time ≠ some [] :=
  c7_time_key (fun _ => none) []
    { linkCount := 1, firstParagraph := "January 5".toList, heading := "Open House".toList,
      clockParagraphs := [], href := none } (by decide)

/-- C8: when the detail request of a card fails, `fetchEventDescription`
returns the empty string, and the callback still appends the record of the
card, with its title and date and without the key `description`. -/
theorem c8_failed_detail_fetch (get : Http) (allEvents : List EventRecord) (elem : EventCard)
    (eventUrl : JSString) (h : 0 < elem.linkCount)
    (hurl : resolveEventUrl elem.href = some eventUrl) (hfail : get eventUrl = none) :
    fetchEventDescription get eventUrl = [] ∧
    ∃ r, cardCallback get allEvents elem = allEvents ++ [r] ∧
      r.title = jsTrim elem.heading ∧ r.date = jsTrim elem.firstParagraph ∧
      r.description = none := by
  have hf : fetchEventDescription get eventUrl = [] := by
    simp [fetchEventDescription, hfail]
  refine ⟨hf, assembleEvent (jsTrim elem.heading) (jsTrim elem.firstParagraph) (cardTime elem)
    (cardDescription get elem), ?_, rfl, rfl, ?_⟩
  · rw [cardCallback_eq]
    simp [cardEvents, h]
  · have hd : cardDescription get elem = [] := by
      unfold cardDescription
      rw [hurl]
      by_cases hu : eventUrl = []
      · simp [hu]
      · simp [hu, hf]
    simp [assembleEvent, hd]

/-- C8 on a card with a root-relative link, every request failing. -/
theorem c8_failed_detail_fetch_witness :
    fetchEventDescription (fun _ => none) "https://www.du.edu/events/open-house".toList = [] ∧
    ∃ r, cardCallback (fun _ => none) []
        { linkCount := 1, firstParagraph := "January 5".toList, heading := "Open House".toList,
          clockParagraphs := ["9:00am".toList], href := some "/events/open-house".toList } =
        [] ++ [r] ∧
      r.title = jsTrim "Open House".toList ∧ r.date = jsTrim "January 5".toList ∧
      r.description = none :=
  c8_failed_detail_fetch (fun _ => none) []
    { linkCount := 1, firstParagraph := "January 5".toList, heading := "Open House".toList,
      clockParagraphs := ["9:00am".toList], href := some "/events/open-house".toList }
    "https://www.du.edu/events/open-house".toList (by decide) (by decide) rfl

/-- C9: whatever the outcomes of the twelve listing requests and whenever
the suspended card callbacks resume, every window is requested in turn
(the twelve URLs are distinct, so every pattern of success and failure is an
outcome function); a window whose request fails contributes no record: the
records of the state, pushed or held by suspended callbacks, are the same
before and after its iteration; every iteration keeps the records pushed
before it in place; and when the loop ends the records of the state are
those of the windows whose request succeeded, each once.  The list written
later extends the list reached at the end of the loop. -/
theorem c9_window_failure_isolated (get : Http) (sched : Schedule) :
    (scrapeCalendarEvents get sched).requested = buildMonths.map listingUrl ∧
    (scrapeCalendarEvents get sched).requested.length = 12 ∧
    (buildMonths.map listingUrl).Nodup ∧
    (∀ st w, (windowStep get sched st w).requested = st.requested ++ [listingUrl w]) ∧
    (∀ w, get (listingUrl w) = none → windowEvents get w = []) ∧
    (∀ st w, get (listingUrl w) = none →
      List.Perm (stateRecords get (windowStep get sched st w)) (stateRecords get st)) ∧
    (∀ st w, st.allEvents <+: (windowStep get sched st w).allEvents) ∧
    List.Perm (stateRecords get (scrapeCalendarEvents get sched))
      (buildMonths.flatMap (windowEvents get)) ∧
    (scrapeCalendarEvents get sched).allEvents <+: writtenEvents get sched := by
  obtain ⟨hperm, -, hreq⟩ := foldl_windowStep_spec get sched buildMonths
    { allEvents := [], suspended := [], requested := [] }
  have hfail : ∀ w, get (listingUrl w) = none → windowEvents get w = [] := by
    intro w hw
    simp [windowEvents, hw]
  refine ⟨?_, ?_, by decide, ?_, hfail, ?_, ?_, ?_, ?_⟩
  · simpa [scrapeCalendarEvents] using hreq
  · rw [show (scrapeCalendarEvents get sched).requested = [] ++ buildMonths.map listingUrl
      from hreq]
    simp only [List.nil_append, List.length_map]
    decide
  · intro st w
    exact (windowStep_spec get sched st w).2.2
  · intro st w hw
    have h := (windowStep_spec get sched st w).1
    rw [hfail w hw, List.append_nil] at h
    exact h
  · intro st w
    exact (windowStep_spec get sched st w).2.1
  · simpa [scrapeCalendarEvents, stateRecords] using hperm
  · exact (resumeMany_spec get sched.beforeWrite (scrapeCalendarEvents get sched)).2.1

end Scraper
